import Mathlib

/-!
Verification of the `thane_egui_utils` item-model and drop-down widget.

The embedding below mirrors `src/item_model.rs` (the `ListModel` /
`KeyedListModel` contracts and their `Vec` and `IndexMap` backings) and
`src/drop_down.rs` (the searchable selector `ModelDropDown`).

Conventions of the embedding:
* Items are concrete records with a string key, a display text and an opaque
  numeric payload standing for all remaining fields.
* The `Vec<I>` backing is a `List Item`; the `IndexMap<String, I>` backing is
  a `List (String × Item)` of (map key, value) pairs kept in insertion order.
* The `indexmap` primitives used by the source (`insert`, `move_index`,
  `shift_remove_index`, `swap_indices`, `get_index`, `get_index_of`) are
  embedded one by one; `move_index` panics in Rust when an index is out of
  bounds, so the embedded `move_index` (and the `ListModel::insert` built on
  it) returns `Option`, with `none` standing for the panic.
-/

namespace ThaneEguiUtils

/-- A concrete `KeyedViewItem`: `key` is `KeyedViewItem::key`, `text` is what
`ViewItem::with_text` exposes, `payload` stands for every other field. -/
structure Item where
  key : String
  text : String
  payload : Nat
deriving Repr, DecidableEq

/-- Embeds `KeyedViewItem::set_key`. -/
def Item.set_key (it : Item) (k : String) : Item := { it with key := k }

/-! ## The `Vec<I>` backing of `ListModel` (src/item_model.rs, lines 87-138) -/

abbrev VecModel := List Item

/-- Embeds `ListModel::insert` for `Vec`: `if index <= self.len() { self.insert(index, item) }`. -/
def VecModel.insert (m : VecModel) (index : Nat) (item : Item) : VecModel :=
  if index ≤ m.length then m.insertIdx index item else m

/-- Embeds `ListModel::remove` for `Vec`: `if index < self.len() { self.remove(index) }`. -/
def VecModel.remove (m : VecModel) (index : Nat) : VecModel :=
  if index < m.length then m.eraseIdx index else m

/-- Embeds `Vec::swap` on two in-bounds indices: exchange the elements. -/
def listSwap (m : List α) (a b : Nat) : List α :=
  match m[a]?, m[b]? with
  | some x, some y => (m.set a y).set b x
  | _, _ => m

/-- Embeds `ListModel::swap_items` for `Vec`: `if a < self.len() && b < self.len() { self.swap(a, b) }`. -/
def VecModel.swap_items (m : VecModel) (a b : Nat) : VecModel :=
  if a < m.length ∧ b < m.length then listSwap m a b else m

/-- Embeds `ListModel::copy` for `Vec`: `if a < len && b < len { self[b] = self[a].clone() }`. -/
def VecModel.copy (m : VecModel) (a b : Nat) : VecModel :=
  if h : a < m.length ∧ b < m.length then m.set b (m.get ⟨a, h.1⟩) else m

/-! ## The `IndexMap<String, I>` backing (src/item_model.rs, lines 140-221)

`KModel` is the ordered list of (map key, value) entries of the `IndexMap`. -/

abbrev KModel := List (String × Item)

/-- Embeds `IndexMap::contains_key`. -/
def KModel.contains_key (m : KModel) (k : String) : Bool :=
  m.any (fun p => p.1 == k)

/-- Embeds `IndexMap::insert k v`: replaces the value in place when the key is
present (keeping its position), otherwise appends the new entry at the end. -/
def KModel.map_insert : KModel → String → Item → KModel
  | [], k, v => [(k, v)]
  | p :: rest, k, v =>
    if p.1 == k then (k, v) :: rest else p :: KModel.map_insert rest k v

/-- Embeds `IndexMap::get_index`. -/
def KModel.get_index (m : KModel) (index : Nat) : Option (String × Item) :=
  m[index]?

/-- Embeds `IndexMap::get_index_of`. -/
def KModel.get_index_of (m : KModel) (k : String) : Option Nat :=
  m.findIdx? (fun p => p.1 == k)

/-- Embeds `IndexMap::move_index from to`: moves the entry at `from` to position
`to`, shifting the entries in between; Rust panics when `from` or `to` is out
of bounds, embedded as `none`. -/
def KModel.move_index (m : KModel) (i j : Nat) : Option KModel :=
  if i < m.length ∧ j < m.length then
    match m[i]? with
    | some x => some ((m.eraseIdx i).insertIdx j x)
    | none => none
  else none

/-- Embeds `ListModel::len` for `IndexMap`. -/
def KModel.len (m : KModel) : Nat := m.length

/-- Embeds `ListModel::item` for `IndexMap`: `self.get_index(index).map(|(_, v)| v)`. -/
def KModel.item (m : KModel) (index : Nat) : Option Item :=
  (KModel.get_index m index).map Prod.snd

/-- Embeds `ListModel::add` for `IndexMap`:
`if !self.contains_key(key) { self.insert(key.into_owned(), item) }`. -/
def KModel.add (m : KModel) (item : Item) : KModel :=
  if KModel.contains_key m item.key then m else KModel.map_insert m item.key item

/-- Embeds `ListModel::insert` for `IndexMap`:
`if index <= self.len() { self.add(item); self.move_index(self.len() - 1, index) }`;
`none` is the `move_index` panic. -/
def KModel.insert (m : KModel) (index : Nat) (item : Item) : Option KModel :=
  if index ≤ m.length then
    let m' := KModel.add m item
    KModel.move_index m' (m'.length - 1) index
  else some m

/-- Embeds `ListModel::remove` for `IndexMap`:
`if index < self.len() { self.shift_remove_index(index) }`. -/
def KModel.remove (m : KModel) (index : Nat) : KModel :=
  if index < m.length then m.eraseIdx index else m

/-- Embeds `ListModel::swap_items` for `IndexMap`:
`if a < len && b < len { self.swap_indices(a, b) }`. -/
def KModel.swap_items (m : KModel) (a b : Nat) : KModel :=
  if a < m.length ∧ b < m.length then listSwap m a b else m

/-- Embeds `ListModel::copy` for `IndexMap`: read the key at `b` and the value at
`a`, rewrite the clone's key to `b`'s key, and `IndexMap::insert` it back. -/
def KModel.copy (m : KModel) (a b : Nat) : KModel :=
  match (KModel.get_index m b).map Prod.fst with
  | some key =>
    match (KModel.get_index m a).map Prod.snd with
    | some v => KModel.map_insert m key (Item.set_key v key)
    | none => m
  | none => m

/-- Embeds `KeyedListModel::index_of` for `IndexMap`: `self.get_index_of(key)`. -/
def KModel.index_of (m : KModel) (k : String) : Option Nat :=
  KModel.get_index_of m k

/-! ## Operation sequences over the keyed backing, for the invariant claims -/

/-- One call of the mutating `ListModel` contract on the keyed backing. -/
inductive Op where
  | add (item : Item)
  | insert (index : Nat) (item : Item)
  | remove (index : Nat)
  | swap (a b : Nat)
  | copy (a b : Nat)
deriving Repr

/-- Apply one contract call; `none` propagates the `move_index` panic. -/
def applyOp (m : KModel) : Op → Option KModel
  | .add it => some (KModel.add m it)
  | .insert i it => KModel.insert m i it
  | .remove i => some (KModel.remove m i)
  | .swap a b => some (KModel.swap_items m a b)
  | .copy a b => some (KModel.copy m a b)

/-- Run a sequence of contract calls. -/
def runOps (m : KModel) : List Op → Option KModel
  | [] => some m
  | op :: rest => (applyOp m op).bind (fun m' => runOps m' rest)

/-- The representation invariant of the keyed backing: map keys are pairwise
distinct, and every stored item's own key equals its map key. -/
def KModel.Inv (m : KModel) : Prop :=
  (m.map Prod.fst).Nodup ∧ ∀ p ∈ m, p.2.key = p.1

/-! ## The searchable selector (src/drop_down.rs)

`show_impl` is embedded as a pure function of one render pass: it takes the
widget's persisted state (persisted search text and popup-open flag, the
egui memory entries for `id` and `popup_id`), the per-pass events reported by
egui (`gained_focus`, `changed`, the edited text, a click on a row), and
returns the new persisted state together with the emitted selection. -/

/-- The item sequence a `ListModel` presents to the widget: for the keyed
backing, `item(i)` is the value part of the i-th entry. -/
def KModel.items (m : KModel) : List Item :=
  m.map Prod.snd

/-- Rust `str::contains`: case-sensitive substring test. -/
def strContains (text search : String) : Bool :=
  decide (search.toList <:+: text.toList)

/-- The row filter of `show_impl`: `search.is_empty() || text.contains(&search)`. -/
def rowVisible (search text : String) : Bool :=
  search.isEmpty || strContains text search

/-- The rows `show_impl` renders: indices `i` in `0..model.len()`, in order,
whose item exists and whose display text passes the row filter. -/
def visibleRowIdx (items : List Item) (search : String) : List Nat :=
  (List.range items.length).filter (fun i =>
    match items[i]? with
    | some it => rowVisible search it.text
    | none => false)

/-- The display texts of the visible rows, in render order. -/
def visibleTexts (items : List Item) (search : String) : List String :=
  (visibleRowIdx items search).filterMap (fun i => (items[i]?).map Item.text)

/-- The persisted widget state: the persisted search text stored under `id`
and the popup-open flag of `popup_id`. -/
structure WidgetState where
  persistedText : String
  popupOpen : Bool
deriving Repr, DecidableEq

/-- The per-pass events egui reports to `show_impl`: whether the text edit
gained focus, whether its text changed (and to what), and which row (if any)
was clicked in the popup this pass. -/
structure PassInput where
  gainedFocus : Bool
  textChanged : Bool
  typed : String
  clicked : Option Nat
deriving Repr, DecidableEq

/-- The display text of the current selection:
`selected_index.and_then(|i| model.item(i)).map(with_text).unwrap_or_default()`. -/
def displayTextOf (items : List Item) (selectedIndex : Option Nat) : String :=
  (((selectedIndex.bind (fun i => items[i]?)).map Item.text)).getD ""

/-- The search text, persisted text and popup flag after the focus /
force-refresh / text-changed cascade of `show_impl` (lines 104-133), before
any click is handled. Returns `(search, persistedText, popupOpen)`. -/
def passState (forceRefresh : Bool) (items : List Item) (selectedIndex : Option Nat)
    (st : WidgetState) (inp : PassInput) : String × String × Bool :=
  let displayText := displayTextOf items selectedIndex
  let search0 := if st.popupOpen then st.persistedText else displayText
  if inp.gainedFocus then ("", "", true)
  else if forceRefresh then (displayText, displayText, st.popupOpen)
  else if inp.textChanged then (inp.typed, inp.typed, st.popupOpen)
  else (search0, st.persistedText, st.popupOpen)

/-- Embeds `ModelDropDown::show_impl` as a pure render pass: after the text-edit
cascade, a click on a rendered row (the popup must be open and the row must
pass the filter) persists that row's display text, closes the popup and emits
the row index as the selection; otherwise state carries over and no selection
is emitted. -/
def showImpl (forceRefresh : Bool) (items : List Item) (selectedIndex : Option Nat)
    (st : WidgetState) (inp : PassInput) : WidgetState × Option Nat :=
  let s := passState forceRefresh items selectedIndex st inp
  match inp.clicked with
  | some i =>
    match items[i]? with
    | some it =>
      if s.2.2 && rowVisible s.1 it.text then (⟨it.text, false⟩, some i)
      else (⟨s.2.1, s.2.2⟩, none)
    | none => (⟨s.2.1, s.2.2⟩, none)
  | none => (⟨s.2.1, s.2.2⟩, none)

/-- The key-to-index resolution at the start of `ModelDropDown::show`:
the held key, passed through the forward transform when one is set, looked
up with `index_of`. -/
def resolveIndex (keyTransform : Option (String → String)) (m : KModel)
    (key : Option String) : Option Nat :=
  key.bind (fun k =>
    match keyTransform with
    | some t => KModel.index_of m (t k)
    | none => KModel.index_of m k)

/-- Embeds `ModelDropDown::show` (key mode): resolve the held key to an index, run
`show_impl`, and on a selection write the chosen item's key — through the
reverse transform when one is set — back to the caller's key. -/
def show_keyed (forceRefresh : Bool) (keyTransform keyReverseTransform : Option (String → String))
    (m : KModel) (key : Option String) (st : WidgetState) (inp : PassInput) :
    WidgetState × Option String :=
  let index := resolveIndex keyTransform m key
  let r := showImpl forceRefresh (KModel.items m) index st inp
  match r.2 with
  | some i =>
    match KModel.item m i with
    | some it =>
      (r.1, some (match keyReverseTransform with
        | some t => t it.key
        | none => it.key))
    | none => (r.1, key)
  | none => (r.1, key)

/-- Embeds `ModelDropDown::show_indexed` (index mode): run `show_impl` on the held
index and overwrite it only when a selection is emitted. -/
def show_indexed (forceRefresh : Bool) (items : List Item) (index : Option Nat)
    (st : WidgetState) (inp : PassInput) : WidgetState × Option Nat :=
  let r := showImpl forceRefresh items index st inp
  match r.2 with
  | some i => (r.1, some i)
  | none => (r.1, index)

/-! ## Helper lemmas about the keyed backing -/

theorem contains_key_iff (m : KModel) (k : String) :
    KModel.contains_key m k = true ↔ k ∈ m.map Prod.fst := by
  unfold KModel.contains_key
  rw [List.any_eq_true]
  constructor
  · rintro ⟨p, hp, he⟩
    rw [beq_iff_eq] at he
    exact he ▸ List.mem_map_of_mem Prod.fst hp
  · intro hk
    rcases List.mem_map.1 hk with ⟨p, hp, he⟩
    exact ⟨p, hp, by rw [beq_iff_eq]; exact he⟩

theorem map_insert_of_not_contains (m : KModel) (k : String) (v : Item)
    (h : KModel.contains_key m k = false) :
    KModel.map_insert m k v = m ++ [(k, v)] := by
  induction m with
  | nil => rfl
  | cons p rest ih =>
    simp only [KModel.contains_key, List.any_cons, Bool.or_eq_false_iff] at h
    simp only [KModel.map_insert, h.1, Bool.false_eq_true, if_false, List.cons_append]
    rw [ih h.2]

theorem keys_map_insert_of_contains (m : KModel) (k : String) (v : Item)
    (h : KModel.contains_key m k = true) :
    (KModel.map_insert m k v).map Prod.fst = m.map Prod.fst := by
  induction m with
  | nil => simp [KModel.contains_key] at h
  | cons p rest ih =>
    by_cases hp : p.1 == k
    · simp only [KModel.map_insert, hp, if_pos, List.map_cons]
      rw [show p.1 = k from by simpa using hp]
    · simp only [KModel.contains_key, List.any_cons, hp, Bool.false_or] at h
      simp only [KModel.map_insert, hp, if_neg, List.map_cons, Bool.false_eq_true,
        not_false_iff]
      rw [ih h]

theorem mem_map_insert (m : KModel) (k : String) (v : Item) (q : String × Item)
    (h : q ∈ KModel.map_insert m k v) : q = (k, v) ∨ q ∈ m := by
  induction m with
  | nil => simpa [KModel.map_insert] using h
  | cons p rest ih =>
    by_cases hp : p.1 == k
    · simp only [KModel.map_insert, hp, if_pos, List.mem_cons] at h
      rcases h with h | h
      · exact Or.inl h
      · exact Or.inr (List.mem_cons_of_mem _ h)
    · simp only [KModel.map_insert, hp, if_neg, List.mem_cons, Bool.false_eq_true,
        not_false_iff] at h
      rcases h with h | h
      · exact Or.inr (h ▸ List.mem_cons_self _ _)
      · rcases ih h with h' | h'
        · exact Or.inl h'
        · exact Or.inr (List.mem_cons_of_mem _ h')

theorem Inv_map_insert (m : KModel) (k : String) (v : Item)
    (hInv : KModel.Inv m) (hk : v.key = k) : KModel.Inv (KModel.map_insert m k v) := by
  cases hc : KModel.contains_key m k
  · rw [map_insert_of_not_contains m k v hc]
    constructor
    · have hnk : k ∉ m.map Prod.fst := by
        intro hmem
        rw [← contains_key_iff] at hmem
        simp [hmem] at hc
      simp only [List.map_append, List.map_cons, List.map_nil]
      rw [List.nodup_append]
      refine ⟨hInv.1, List.nodup_singleton k, ?_⟩
      intro a ha hb
      simp only [List.mem_singleton] at hb
      subst hb
      exact hnk ha
    · intro p hp
      rcases List.mem_append.1 hp with h | h
      · exact hInv.2 p h
      · simp only [List.mem_singleton] at h
        subst h; exact hk
  · constructor
    · rw [keys_map_insert_of_contains m k v hc]
      exact hInv.1
    · intro p hp
      rcases mem_map_insert m k v p hp with h | h
      · subst h; exact hk
      · exact hInv.2 p h

theorem Inv_add (m : KModel) (it : Item) (hInv : KModel.Inv m) :
    KModel.Inv (KModel.add m it) := by
  unfold KModel.add
  split
  · exact hInv
  · exact Inv_map_insert m it.key it hInv rfl

/-! ## Permutation lemmas for `move_index` and `swap_indices` -/

theorem cons_eraseIdx_perm : ∀ (m : List α) (i : Nat) (x : α),
    m[i]? = some x → (x :: m.eraseIdx i).Perm m
  | [], i, x, h => by simp at h
  | a :: t, 0, x, h => by
    simp only [List.getElem?_cons_zero, Option.some.injEq] at h
    subst h
    exact List.Perm.refl _
  | a :: t, i + 1, x, h => by
    simp only [List.getElem?_cons_succ] at h
    have ih := cons_eraseIdx_perm t i x h
    have h1 : (x :: a :: t.eraseIdx i).Perm (a :: x :: t.eraseIdx i) :=
      List.Perm.swap a x _
    exact h1.trans (List.Perm.cons a ih)

theorem cons_set_perm : ∀ (t : List α) (j : Nat) (x h : α),
    t[j]? = some x → (x :: t.set j h).Perm (h :: t)
  | [], j, x, h, hj => by simp at hj
  | z :: t, 0, x, h, hj => by
    simp only [List.getElem?_cons_zero, Option.some.injEq] at hj
    subst hj
    exact List.Perm.swap h z t
  | z :: t, j + 1, x, h, hj => by
    simp only [List.getElem?_cons_succ] at hj
    have ih := cons_set_perm t j x h hj
    have h1 : (x :: z :: t.set j h).Perm (z :: x :: t.set j h) :=
      List.Perm.swap z x _
    have h2 : (z :: x :: t.set j h).Perm (z :: h :: t) := List.Perm.cons z ih
    have h3 : (z :: h :: t).Perm (h :: z :: t) := List.Perm.swap h z t
    exact h1.trans (h2.trans h3)

theorem set_set_swap_perm : ∀ (m : List α) (a b : Nat) (x y : α),
    m[a]? = some x → m[b]? = some y → ((m.set a y).set b x).Perm m
  | [], a, b, x, y, ha, _ => by simp at ha
  | h :: t, 0, 0, x, y, ha, hb => by
    simp only [List.getElem?_cons_zero, Option.some.injEq] at ha hb
    subst ha; subst hb
    exact List.Perm.refl _
  | h :: t, 0, j + 1, x, y, ha, hb => by
    simp only [List.getElem?_cons_zero, Option.some.injEq, List.getElem?_cons_succ] at ha hb
    subst ha
    exact cons_set_perm t j y h hb
  | h :: t, i + 1, 0, x, y, ha, hb => by
    simp only [List.getElem?_cons_zero, Option.some.injEq, List.getElem?_cons_succ] at ha hb
    subst hb
    exact cons_set_perm t i x h ha
  | h :: t, i + 1, j + 1, x, y, ha, hb => by
    simp only [List.getElem?_cons_succ] at ha hb
    exact List.Perm.cons h (set_set_swap_perm t i j x y ha hb)

theorem listSwap_perm (m : List α) (a b : Nat) : (listSwap m a b).Perm m := by
  unfold listSwap
  cases ha : m[a]? with
  | none => exact List.Perm.refl m
  | some x =>
    cases hb : m[b]? with
    | none => exact List.Perm.refl m
    | some y => exact set_set_swap_perm m a b x y ha hb

theorem move_index_perm (m m' : KModel) (i j : Nat)
    (h : KModel.move_index m i j = some m') : m'.Perm m := by
  unfold KModel.move_index at h
  split at h
  · rename_i hb
    cases hx : m[i]? with
    | none => rw [hx] at h; exact absurd h (by simp)
    | some x =>
      rw [hx] at h
      simp only [Option.some.injEq] at h
      subst h
      have h1 : ((m.eraseIdx i).insertIdx j x).Perm (x :: m.eraseIdx i) := by
        apply List.perm_insertIdx
        have := List.length_eraseIdx_add_one (l := m) (i := i) (by
          exact (List.getElem?_eq_some_iff.1 hx).1)
        omega
      exact h1.trans (cons_eraseIdx_perm m i x hx)
  · exact absurd h (by simp)

theorem Inv_perm (m m' : KModel) (h : m'.Perm m) (hInv : KModel.Inv m) :
    KModel.Inv m' := by
  constructor
  · exact ((h.map Prod.fst).nodup_iff).2 hInv.1
  · intro p hp
    exact hInv.2 p (h.mem_iff.1 hp)

theorem Inv_insert (m m' : KModel) (i : Nat) (it : Item)
    (h : KModel.insert m i it = some m') (hInv : KModel.Inv m) : KModel.Inv m' := by
  unfold KModel.insert at h
  split at h
  · exact Inv_perm _ _ (move_index_perm _ _ _ _ h) (Inv_add m it hInv)
  · simp only [Option.some.injEq] at h
    exact h ▸ hInv

theorem Inv_remove (m : KModel) (i : Nat) (hInv : KModel.Inv m) :
    KModel.Inv (KModel.remove m i) := by
  unfold KModel.remove
  split
  · constructor
    · exact hInv.1.sublist ((m.eraseIdx_sublist i).map Prod.fst)
    · intro p hp
      exact hInv.2 p ((m.eraseIdx_sublist i).mem hp)
  · exact hInv

theorem Inv_swap (m : KModel) (a b : Nat) (hInv : KModel.Inv m) :
    KModel.Inv (KModel.swap_items m a b) := by
  unfold KModel.swap_items
  split
  · exact Inv_perm _ _ (listSwap_perm m a b) hInv
  · exact hInv

theorem Inv_copy (m : KModel) (a b : Nat) (hInv : KModel.Inv m) :
    KModel.Inv (KModel.copy m a b) := by
  unfold KModel.copy
  cases hkb : (KModel.get_index m b).map Prod.fst with
  | none => exact hInv
  | some key =>
    cases hva : (KModel.get_index m a).map Prod.snd with
    | none => exact hInv
    | some v => exact Inv_map_insert m key (Item.set_key v key) hInv rfl

theorem Inv_applyOp (m m' : KModel) (op : Op)
    (h : applyOp m op = some m') (hInv : KModel.Inv m) : KModel.Inv m' := by
  cases op with
  | add it =>
    simp only [applyOp, Option.some.injEq] at h
    exact h ▸ Inv_add m it hInv
  | insert i it => exact Inv_insert m m' i it h hInv
  | remove i =>
    simp only [applyOp, Option.some.injEq] at h
    exact h ▸ Inv_remove m i hInv
  | swap a b =>
    simp only [applyOp, Option.some.injEq] at h
    exact h ▸ Inv_swap m a b hInv
  | copy a b =>
    simp only [applyOp, Option.some.injEq] at h
    exact h ▸ Inv_copy m a b hInv

theorem Inv_runOps (ops : List Op) (m0 m : KModel)
    (h : runOps m0 ops = some m) (hInv : KModel.Inv m0) : KModel.Inv m := by
  induction ops generalizing m0 with
  | nil =>
    simp only [runOps, Option.some.injEq] at h
    exact h ▸ hInv
  | cons op rest ih =>
    simp only [runOps, Option.bind_eq_bind] at h
    rcases Option.bind_eq_some.1 h with ⟨m1, h1, h2⟩
    exact ih m1 h2 (Inv_applyOp m0 m1 op h1 hInv)

/-! ## Lookup lemmas: `get_index_of` against positions -/

theorem nodup_findIdx : ∀ (m : KModel) (i : Nat) (p : String × Item),
    (m.map Prod.fst).Nodup → m[i]? = some p →
    m.findIdx? (fun q => q.1 == p.1) = some i
  | [], i, p, _, hp => by simp at hp
  | q :: rest, 0, p, _, hp => by
    simp only [List.getElem?_cons_zero, Option.some.injEq] at hp
    subst hp
    simp [List.findIdx?_cons]
  | q :: rest, i + 1, p, hnd, hp => by
    simp only [List.getElem?_cons_succ] at hp
    simp only [List.map_cons, List.nodup_cons] at hnd
    have hne : (q.1 == p.1) = false := by
      rw [beq_eq_false_iff_ne]
      intro he
      exact hnd.1 (he ▸ List.mem_map_of_mem Prod.fst (List.getElem?_mem hp))
    rw [List.findIdx?_cons, hne, if_neg (by simp), List.findIdx?_succ,
      nodup_findIdx rest i p hnd.2 hp]
    rfl

theorem findIdx?_some_get : ∀ (l : List (String × Item)) (pred : String × Item → Bool) (i : Nat),
    l.findIdx? pred = some i → ∃ x, l[i]? = some x ∧ pred x = true
  | [], _, i, h => by simp at h
  | q :: rest, pred, i, h => by
    rw [List.findIdx?_cons] at h
    by_cases hq : pred q
    · rw [if_pos hq] at h
      simp only [Option.some.injEq] at h
      subst h
      exact ⟨q, by simp, hq⟩
    · rw [if_neg hq, List.findIdx?_succ] at h
      cases hr : rest.findIdx? pred with
      | none => rw [hr] at h; simp at h
      | some j =>
        rw [hr] at h
        simp only [Option.map_some', Option.some.injEq] at h
        subst h
        rcases findIdx?_some_get rest pred j hr with ⟨x, hx, hpx⟩
        exact ⟨x, by simpa using hx, hpx⟩

/-! ## `IndexMap::insert` replaces in place at the key's position -/

theorem map_insert_getElem? : ∀ (m : KModel) (b : Nat) (kb : String) (vb v : Item),
    (m.map Prod.fst).Nodup → m[b]? = some (kb, vb) →
    (KModel.map_insert m kb v)[b]? = some (kb, v) ∧
      ∀ j, j ≠ b → (KModel.map_insert m kb v)[j]? = m[j]?
  | [], b, kb, vb, v, _, hb => by simp at hb
  | p :: rest, 0, kb, vb, v, _, hb => by
    simp only [List.getElem?_cons_zero, Option.some.injEq] at hb
    subst hb
    simp only [KModel.map_insert, beq_self_eq_true, if_pos]
    refine ⟨by simp, ?_⟩
    intro j hj
    match j with
    | 0 => exact absurd rfl hj
    | j' + 1 => simp
  | p :: rest, b + 1, kb, vb, v, hnd, hb => by
    simp only [List.getElem?_cons_succ] at hb
    simp only [List.map_cons, List.nodup_cons] at hnd
    have hne : (p.1 == kb) = false := by
      rw [beq_eq_false_iff_ne]
      intro he
      have : kb ∈ rest.map Prod.fst := by
        have := List.getElem?_mem hb
        simpa using List.mem_map_of_mem Prod.fst this
      exact hnd.1 (he ▸ this)
    have ih := map_insert_getElem? rest b kb vb v hnd.2 hb
    simp only [KModel.map_insert, hne, Bool.false_eq_true, if_false]
    refine ⟨by simpa using ih.1, ?_⟩
    intro j hj
    match j with
    | 0 => simp
    | j' + 1 =>
      simp only [List.getElem?_cons_succ]
      exact ih.2 j' (by omega)

/-! ## `insert` with a fresh key is a plain positional insertion -/

theorem insert_fresh_eq (m : KModel) (i : Nat) (it : Item)
    (hfresh : KModel.contains_key m it.key = false) (hi : i ≤ m.length) :
    KModel.insert m i it = some (m.insertIdx i (it.key, it)) := by
  have hadd : KModel.add m it = m ++ [(it.key, it)] := by
    simp only [KModel.add, hfresh, Bool.false_eq_true, if_false]
    exact map_insert_of_not_contains m it.key it hfresh
  have hget : (m ++ [(it.key, it)])[m.length]? = some (it.key, it) := by
    rw [List.getElem?_append_right (le_refl _)]
    simp
  have herase : (m ++ [(it.key, it)]).eraseIdx m.length = m := by
    rw [← List.insertIdx_length_self m (it.key, it), List.eraseIdx_insertIdx]
  simp only [KModel.insert, if_pos hi, hadd]
  have hlen : (m ++ [(it.key, it)]).length - 1 = m.length := by simp
  rw [hlen]
  unfold KModel.move_index
  rw [if_pos (by constructor <;> simp [Nat.lt_succ_of_le, hi])]
  rw [hget, herase]

/-! ## The rendered rows are a filter of the model in order -/

theorem visibleRowIdx_cons (x : Item) (xs : List Item) (s : String) :
    visibleRowIdx (x :: xs) s =
      (if rowVisible s x.text then [0] else []) ++ (visibleRowIdx xs s).map Nat.succ := by
  unfold visibleRowIdx
  rw [List.length_cons, List.range_succ_eq_map, List.filter_cons]
  have hzero : (match (x :: xs)[0]? with
      | some it => rowVisible s it.text
      | none => false) = rowVisible s x.text := by simp
  rw [hzero]
  rw [List.filter_map]
  have hcomp : ((fun i => match (x :: xs)[i]? with
      | some it => rowVisible s it.text
      | none => false) ∘ Nat.succ) = (fun i => match xs[i]? with
      | some it => rowVisible s it.text
      | none => false) := by
    funext i
    simp [Function.comp]
  rw [hcomp]
  split <;> simp

theorem visibleTexts_cons (x : Item) (xs : List Item) (s : String) :
    visibleTexts (x :: xs) s =
      (if rowVisible s x.text then [x.text] else []) ++ visibleTexts xs s := by
  unfold visibleTexts
  rw [visibleRowIdx_cons, List.filterMap_append, List.filterMap_map]
  have hcomp : ((fun i => ((x :: xs)[i]?).map Item.text) ∘ Nat.succ)
      = (fun i => (xs[i]?).map Item.text) := by
    funext i
    simp [Function.comp]
  rw [hcomp]
  split <;> simp

theorem visibleTexts_eq_filter (items : List Item) (s : String) :
    visibleTexts items s = (items.map Item.text).filter (fun t => rowVisible s t) := by
  induction items with
  | nil => rfl
  | cons x xs ih =>
    rw [visibleTexts_cons, ih, List.map_cons, List.filter_cons]
    split <;> simp

/-! ## Relating the keyed model to the item sequence the widget renders -/

theorem item_eq_items_getElem? (m : KModel) (i : Nat) :
    KModel.item m i = (KModel.items m)[i]? := by
  simp [KModel.item, KModel.items, KModel.get_index, List.getElem?_map]

/-! ## Concrete data for witnesses and counterexamples -/

/-- Example item with key "a". -/
def itApple : Item := ⟨"a", "apple", 0⟩

/-- Example item with the same key "a" but different payload and text. -/
def itApricot : Item := ⟨"a", "apricot", 7⟩

/-- Example item with key "b". -/
def itBanana : Item := ⟨"b", "banana", 1⟩

/-- Example item with key "c". -/
def itCherry : Item := ⟨"c", "cherry", 2⟩

/-- Example keyed model holding keys "a" and "b". -/
def exAB : KModel := [("a", itApple), ("b", itBanana)]

/-- The spec's example item sequence with display texts apple/banana/cherry. -/
def exFruit : List Item := [itApple, itBanana, itCherry]

/-- Example contract-call sequence exercising every mutating operation. -/
def exOps : List Op :=
  [.add itApple, .add itBanana, .insert 0 itCherry, .swap 0 2, .copy 0 1, .remove 2]

/-- The model `exOps` produces from the empty keyed model. -/
def exRes : KModel := [("b", ⟨"b", "banana", 1⟩), ("a", ⟨"a", "banana", 1⟩)]

/-! ## Claims -/

/-- C1 (counterexample): on the keyed model `[("a", apple), ("b", banana)]`,
`insert(0, apricot)` where apricot's key "a" already exists does NOT put key
"a" at index 0: `add` is a no-op on the duplicate key, and `move_index` then
moves the last entry (key "b") to index 0, so `item(0).key() = "b"` while the
inserted item's key is "a". The existing entry for "a" is not repositioned. -/
theorem insert_duplicate_key_not_repositioned :
    ((KModel.insert exAB 0 itApricot).bind
        (fun m => (KModel.item m 0).map Item.key) = some "b")
    ∧ itApricot.key = "a" := by
  decide

/-- C1 (amended): for a keyed model and `insert(i, item)` with `i ≤ len`,
when `item`'s key is NOT already present the call lands the item at exactly
`i` with its own key, the items previously at `i` and after are shifted by
exactly one position, earlier items are untouched, and exactly one entry is
added (no duplication); when the key already exists the call does not behave
this way (see the counterexample). -/
theorem insert_fresh_lands_at_index (m : KModel) (i : Nat) (it : Item)
    (hfresh : KModel.contains_key m it.key = false) (hi : i ≤ m.length) :
    ∃ m', KModel.insert m i it = some m' ∧
      KModel.item m' i = some it ∧
      (KModel.get_index m' i).map Prod.fst = some it.key ∧
      m'.length = m.length + 1 ∧
      (∀ j, j < i → m'[j]? = m[j]?) ∧
      (∀ k, i + k < m.length → m'[i + k + 1]? = m[i + k]?) := by
  refine ⟨m.insertIdx i (it.key, it), insert_fresh_eq m i it hfresh hi, ?_, ?_, ?_, ?_, ?_⟩
  · rw [KModel.item, KModel.get_index,
      List.getElem?_eq_getElem (by rw [List.length_insertIdx i m hi]; omega),
      List.getElem_insertIdx_self m (it.key, it) i hi]
    rfl
  · rw [KModel.get_index,
      List.getElem?_eq_getElem (by rw [List.length_insertIdx i m hi]; omega),
      List.getElem_insertIdx_self m (it.key, it) i hi]
    rfl
  · exact List.length_insertIdx i m hi
  · intro j hj
    have hjm : j < m.length := by omega
    rw [List.getElem?_eq_getElem (by rw [List.length_insertIdx i m hi]; omega),
      List.getElem?_eq_getElem hjm]
    exact congrArg some (List.getElem_insertIdx_of_lt m (it.key, it) i j hj hjm)
  · intro k hk
    rw [List.getElem?_eq_getElem (by rw [List.length_insertIdx i m hi]; omega),
      List.getElem?_eq_getElem hk]
    exact congrArg some (List.getElem_insertIdx_add_succ m (it.key, it) i k hk)

/-- C1 (witness): inserting a fresh key "c" at index 1 of the two-entry model
satisfies every clause of the amended statement. -/
theorem insert_fresh_lands_at_index_witness :
    KModel.contains_key exAB itCherry.key = false ∧ 1 ≤ exAB.length ∧
    ∃ m', KModel.insert exAB 1 itCherry = some m' ∧
      KModel.item m' 1 = some itCherry ∧
      (KModel.get_index m' 1).map Prod.fst = some itCherry.key ∧
      m'.length = exAB.length + 1 ∧
      (∀ j, j < 1 → m'[j]? = exAB[j]?) ∧
      (∀ k, 1 + k < exAB.length → m'[1 + k + 1]? = exAB[1 + k]?) :=
  ⟨by decide, by decide, insert_fresh_lands_at_index exAB 1 itCherry (by decide) (by decide)⟩

/-- C2 (code evaluated at the failing input): on the keyed model
`[("a", apple)]`, `insert(1, apricot)` with duplicate key "a" passes the
`index <= len` guard, `add` is a no-op, and `move_index(len - 1, 1)` is then
called with `to = 1` out of bounds for length 1; the `none` below is the
`IndexMap::move_index` panic, contradicting the total / silent-no-op
contract the claim states. -/
theorem insert_duplicate_at_len_panics :
    KModel.insert [("a", itApple)] 1 itApricot = none := by
  decide

/-- C3: after every panic-free sequence of contract calls starting from the
empty keyed model, all map keys are pairwise distinct, `index_of(item(i).key())`
is `Some(i)` for every valid `i`, and conversely `index_of(k) = Some(i)` only
when `item(i)` exists and carries key `k`. -/
theorem keyed_model_key_index_consistency (ops : List Op) (m : KModel)
    (h : runOps [] ops = some m) :
    (m.map Prod.fst).Nodup ∧
    (∀ i it, KModel.item m i = some it → KModel.index_of m it.key = some i) ∧
    (∀ k i, KModel.index_of m k = some i →
      ∃ it, KModel.item m i = some it ∧ it.key = k) := by
  have hInv : KModel.Inv m := Inv_runOps ops [] m h ⟨List.nodup_nil, by simp⟩
  refine ⟨hInv.1, ?_, ?_⟩
  · intro i it hit
    rw [KModel.item, KModel.get_index] at hit
    rcases Option.map_eq_some'.1 hit with ⟨p, hp, hsnd⟩
    have hkey : it.key = p.1 := by
      rw [← hsnd]
      exact hInv.2 p (List.getElem?_mem hp)
    rw [KModel.index_of, KModel.get_index_of, hkey]
    exact nodup_findIdx m i p hInv.1 hp
  · intro k i hk
    rw [KModel.index_of, KModel.get_index_of] at hk
    rcases findIdx?_some_get m _ i hk with ⟨p, hp, hpk⟩
    rw [beq_iff_eq] at hpk
    refine ⟨p.2, ?_, ?_⟩
    · rw [KModel.item, KModel.get_index, hp]
      rfl
    · rw [hInv.2 p (List.getElem?_mem hp), hpk]

/-- C3 (witness): the six-call sequence `exOps` produces `exRes`, and the
consistency properties hold of it. -/
theorem keyed_model_key_index_consistency_witness :
    runOps [] exOps = some exRes ∧
    ((exRes.map Prod.fst).Nodup ∧
     (∀ i it, KModel.item exRes i = some it → KModel.index_of exRes it.key = some i) ∧
     (∀ k i, KModel.index_of exRes k = some i →
       ∃ it, KModel.item exRes i = some it ∧ it.key = k)) :=
  ⟨by decide, keyed_model_key_index_consistency exOps exRes (by decide)⟩

/-- C4: for a keyed model satisfying its representation invariant and
in-bounds `a` and `b`, after `copy(a, b)` the item at `b` is the pre-call item
at `a` with its key rewritten to the key that occupied slot `b` (so
`item(b).key()` equals the pre-call `item(b).key()` while text and payload
equal the pre-call `item(a)`), every other slot is untouched, and the
invariant — key uniqueness included — is preserved. -/
theorem copy_rewrites_key_preserves_uniqueness (m : KModel) (a b : Nat)
    (ka kb : String) (va vb : Item)
    (hInv : KModel.Inv m) (ha : m[a]? = some (ka, va)) (hb : m[b]? = some (kb, vb)) :
    KModel.item (KModel.copy m a b) b = some (Item.set_key va kb) ∧
    (Item.set_key va kb).key = vb.key ∧
    (Item.set_key va kb).text = va.text ∧
    (Item.set_key va kb).payload = va.payload ∧
    (∀ j, j ≠ b → (KModel.copy m a b)[j]? = m[j]?) ∧
    KModel.Inv (KModel.copy m a b) := by
  have hcopy : KModel.copy m a b = KModel.map_insert m kb (Item.set_key va kb) := by
    unfold KModel.copy KModel.get_index
    rw [ha, hb]
    rfl
  have hpos := map_insert_getElem? m b kb vb (Item.set_key va kb) hInv.1 hb
  refine ⟨?_, ?_, rfl, rfl, ?_, Inv_copy m a b hInv⟩
  · rw [hcopy, KModel.item, KModel.get_index, hpos.1]
    rfl
  · have hbk : vb.key = kb := hInv.2 (kb, vb) (List.getElem?_mem hb)
    rw [hbk]
    rfl
  · intro j hj
    rw [hcopy]
    exact hpos.2 j hj

/-- C4 (witness): `copy(0, 1)` on the model with keys "a", "b" puts apple's
payload under key "b" at slot 1 and leaves slot 0 untouched. -/
theorem copy_rewrites_key_preserves_uniqueness_witness :
    KModel.Inv exAB ∧ exAB[0]? = some ("a", itApple) ∧ exAB[1]? = some ("b", itBanana) ∧
    (KModel.item (KModel.copy exAB 0 1) 1 = some (Item.set_key itApple "b") ∧
     (Item.set_key itApple "b").key = itBanana.key ∧
     (Item.set_key itApple "b").text = itApple.text ∧
     (Item.set_key itApple "b").payload = itApple.payload ∧
     (∀ j, j ≠ 1 → (KModel.copy exAB 0 1)[j]? = exAB[j]?) ∧
     KModel.Inv (KModel.copy exAB 0 1)) :=
  ⟨⟨by decide, by decide⟩, by decide, by decide,
    copy_rewrites_key_preserves_uniqueness exAB 0 1 "a" "b" itApple itBanana
      ⟨by decide, by decide⟩ (by decide) (by decide)⟩

/-- C5 (counterexample): `insert(i, item)` with `i` equal to the current
length is NOT a no-op on the sequential backing: inserting at index 1 of a
one-element `Vec` appends the item instead of leaving the model unchanged. -/
theorem insert_at_len_not_noop :
    VecModel.insert [itApple] 1 itBanana ≠ [itApple] := by
  decide

/-- C5 (amended): `insert(i, item)` with `i` equal to the current length
appends the item at the end on both backings (for the keyed backing, when the
item's key is not already present); `insert` is a silent no-op only when `i`
exceeds the length. -/
theorem insert_at_len_appends (m : VecModel) (it : Item) (km : KModel) (kit : Item)
    (hfresh : KModel.contains_key km kit.key = false) :
    VecModel.insert m m.length it = m ++ [it] ∧
    KModel.insert km km.length kit = some (km ++ [(kit.key, kit)]) ∧
    (∀ j, m.length < j → VecModel.insert m j it = m) ∧
    (∀ j, km.length < j → KModel.insert km j kit = some km) := by
  refine ⟨?_, ?_, ?_, ?_⟩
  · unfold VecModel.insert
    rw [if_pos (le_refl _), List.insertIdx_length_self]
  · rw [insert_fresh_eq km km.length kit hfresh (le_refl _), List.insertIdx_length_self]
  · intro j hj
    unfold VecModel.insert
    rw [if_neg (by omega)]
  · intro j hj
    unfold KModel.insert
    rw [if_neg (by omega)]

/-- C5 (witness): the amended statement at the one-element `Vec` and the
one-entry keyed model with the fresh item banana. -/
theorem insert_at_len_appends_witness :
    KModel.contains_key [("a", itApple)] itBanana.key = false ∧
    (VecModel.insert [itApple] [itApple].length itBanana = [itApple] ++ [itBanana] ∧
     KModel.insert [("a", itApple)] [("a", itApple)].length itBanana
       = some ([("a", itApple)] ++ [(itBanana.key, itBanana)]) ∧
     (∀ j, [itApple].length < j → VecModel.insert [itApple] j itBanana = [itApple]) ∧
     (∀ j, [("a", itApple)].length < j →
       KModel.insert [("a", itApple)] j itBanana = some [("a", itApple)])) :=
  ⟨by decide, insert_at_len_appends [itApple] itBanana [("a", itApple)] itBanana (by decide)⟩

/-- C6: `add(item)` on the keyed model is a no-op when an item with the same
key is already present — the whole model, hence `len()` and the previously
stored item for that key, is unchanged (first writer wins). -/
theorem add_duplicate_key_noop (m : KModel) (it : Item)
    (h : KModel.contains_key m it.key = true) :
    KModel.add m it = m := by
  simp [KModel.add, h]

/-- C6 (witness): adding apricot (key "a") to the model already holding key
"a" leaves the model unchanged. -/
theorem add_duplicate_key_noop_witness :
    KModel.contains_key exAB itApricot.key = true ∧ KModel.add exAB itApricot = exAB :=
  ⟨by decide, add_duplicate_key_noop exAB itApricot (by decide)⟩

/-- C7: the selector's visible rows are all rows in model order when the
search text is empty, and otherwise exactly the rows whose display text
contains the search text as a case-sensitive substring, in model order; in
particular for display texts apple/banana/cherry and search "an" the visible
rows are exactly ["banana"]. -/
theorem selector_rows_are_substring_filter (items : List Item) (search : String) :
    visibleTexts items "" = items.map Item.text ∧
    (search ≠ "" → visibleTexts items search
        = (items.map Item.text).filter (fun t => strContains t search)) ∧
    visibleTexts exFruit "an" = ["banana"] := by
  refine ⟨?_, ?_, by decide⟩
  · rw [visibleTexts_eq_filter]
    have hp : (fun t => rowVisible "" t) = fun _ => true := by
      funext t
      rfl
    rw [hp, List.filter_true]
  · intro hs
    have he : search.isEmpty = false := by
      cases hE : search.isEmpty
      · rfl
      · exact absurd ((String.isEmpty_iff search).1 hE) hs
    rw [visibleTexts_eq_filter]
    apply List.filter_congr
    intro t _
    simp [rowVisible, he]

/-- C7 (witness): at search "an" over the apple/banana/cherry model, the
visible rows equal the substring filter of the display texts. -/
theorem selector_rows_are_substring_filter_witness :
    ("an" : String) ≠ "" ∧
    visibleTexts exFruit "an"
      = (exFruit.map Item.text).filter (fun t => strContains t "an") :=
  ⟨by decide, (selector_rows_are_substring_filter exFruit "an").2.1 (by decide)⟩

/-- C8: when a row that is rendered this pass (popup open, row passes the
filter) is clicked, `show_impl` emits selection `i`, persists row `i`'s
display text as the search text, and closes the popup; in key mode, `show`
writes row `i`'s item key — through the reverse transform when one is set,
identity otherwise — to the caller's key. -/
theorem clicked_row_commits (fr : Bool) (kT rT : Option (String → String))
    (m : KModel) (key : Option String) (st : WidgetState) (inp : PassInput)
    (i : Nat) (it : Item)
    (hc : inp.clicked = some i)
    (hit : (KModel.items m)[i]? = some it)
    (hopen : (passState fr (KModel.items m) (resolveIndex kT m key) st inp).2.2 = true)
    (hvis : rowVisible (passState fr (KModel.items m) (resolveIndex kT m key) st inp).1
      it.text = true) :
    showImpl fr (KModel.items m) (resolveIndex kT m key) st inp
      = (⟨it.text, false⟩, some i) ∧
    show_keyed fr kT rT m key st inp
      = (⟨it.text, false⟩,
          some (match rT with | some t => t it.key | none => it.key)) := by
  have h1 : showImpl fr (KModel.items m) (resolveIndex kT m key) st inp
      = (⟨it.text, false⟩, some i) := by
    simp [showImpl, hc, hit, hopen, hvis]
  refine ⟨h1, ?_⟩
  simp only [show_keyed, h1, item_eq_items_getElem?, hit]

/-- C8 (witness): clicking visible row 1 ("banana") with popup open and empty
search commits key "b", persists "banana", and closes the popup. -/
theorem clicked_row_commits_witness :
    (⟨false, false, "", some 1⟩ : PassInput).clicked = some 1 ∧
    (KModel.items exAB)[1]? = some itBanana ∧
    (passState false (KModel.items exAB) (resolveIndex none exAB (some "a"))
      ⟨"", true⟩ ⟨false, false, "", some 1⟩).2.2 = true ∧
    rowVisible (passState false (KModel.items exAB) (resolveIndex none exAB (some "a"))
      ⟨"", true⟩ ⟨false, false, "", some 1⟩).1 itBanana.text = true ∧
    (showImpl false (KModel.items exAB) (resolveIndex none exAB (some "a"))
        ⟨"", true⟩ ⟨false, false, "", some 1⟩ = (⟨"banana", false⟩, some 1) ∧
     show_keyed false none none exAB (some "a") ⟨"", true⟩ ⟨false, false, "", some 1⟩
        = (⟨"banana", false⟩, some "b")) := by
  refine ⟨rfl, by decide, by decide, by decide, ?_⟩
  exact clicked_row_commits false none none exAB (some "a") ⟨"", true⟩
    ⟨false, false, "", some 1⟩ 1 itBanana rfl (by decide) (by decide) (by decide)

/-- C9 (counterexample): a render pass in which `force_refresh` is requested
but the text edit also gains focus does NOT end with the persisted text equal
to the selection's display text — the focus branch wins and clears it. -/
theorem force_refresh_loses_to_focus :
    (showImpl true exFruit (some 0) ⟨"typed", true⟩ ⟨true, false, "", none⟩).1.persistedText
      ≠ displayTextOf exFruit (some 0) := by
  decide

/-- C9 (amended): in every render pass in which `force_refresh` is requested,
the text edit did not also gain focus, and no row is clicked, the persisted
search text is overwritten with the current selection's display text,
regardless of any unsaved user-typed text in the persisted state. -/
theorem force_refresh_overwrites_persisted_text (items : List Item)
    (selIdx : Option Nat) (st : WidgetState) (inp : PassInput)
    (hf : inp.gainedFocus = false) (hc : inp.clicked = none) :
    (showImpl true items selIdx st inp).1.persistedText = displayTextOf items selIdx := by
  unfold showImpl passState
  rw [hf, hc]
  simp

/-- C9 (witness): with unsaved typed text "typed" persisted and the user
still editing ("xyz"), a force-refresh pass resets the persisted text to the
selection's display text "apple". -/
theorem force_refresh_overwrites_persisted_text_witness :
    (⟨false, true, "xyz", none⟩ : PassInput).gainedFocus = false ∧
    (⟨false, true, "xyz", none⟩ : PassInput).clicked = none ∧
    (showImpl true exFruit (some 0) ⟨"typed", true⟩
      ⟨false, true, "xyz", none⟩).1.persistedText = displayTextOf exFruit (some 0) :=
  ⟨rfl, rfl, force_refresh_overwrites_persisted_text exFruit (some 0) ⟨"typed", true⟩
    ⟨false, true, "xyz", none⟩ rfl rfl⟩

/-- C10: in any render pass of `show` (key mode) or `show_indexed` (index
mode) in which no selection is emitted, the caller-held key or index is left
unchanged — including when the held key is absent from the model. -/
theorem no_selection_keeps_caller_state (fr : Bool) (kT rT : Option (String → String))
    (m : KModel) (key : Option String) (items : List Item) (idx : Option Nat)
    (st : WidgetState) (inp : PassInput)
    (h1 : (showImpl fr (KModel.items m) (resolveIndex kT m key) st inp).2 = none)
    (h2 : (showImpl fr items idx st inp).2 = none) :
    (show_keyed fr kT rT m key st inp).2 = key ∧
    (show_indexed fr items idx st inp).2 = idx := by
  constructor
  · simp only [show_keyed, h1]
  · simp only [show_indexed, h2]

/-- C10 (witness): a pass with no click leaves both the absent key "zz" and
the out-of-range held index 5 unchanged. -/
theorem no_selection_keeps_caller_state_witness :
    (showImpl false (KModel.items exAB) (resolveIndex none exAB (some "zz"))
      ⟨"", true⟩ ⟨false, false, "", none⟩).2 = none ∧
    (showImpl false exFruit (some 5) ⟨"", true⟩ ⟨false, false, "", none⟩).2 = none ∧
    (show_keyed false none none exAB (some "zz") ⟨"", true⟩
      ⟨false, false, "", none⟩).2 = some "zz" ∧
    (show_indexed false exFruit (some 5) ⟨"", true⟩
      ⟨false, false, "", none⟩).2 = some 5 := by
  refine ⟨by decide, by decide, ?_, ?_⟩
  · exact (no_selection_keeps_caller_state false none none exAB (some "zz") exFruit
      (some 5) ⟨"", true⟩ ⟨false, false, "", none⟩ (by decide) (by decide)).1
  · exact (no_selection_keeps_caller_state false none none exAB (some "zz") exFruit
      (some 5) ⟨"", true⟩ ⟨false, false, "", none⟩ (by decide) (by decide)).2

end ThaneEguiUtils
